import Mathlib

/-
  A shallow embedding of the phoneme-duration aggregation pipeline of
  src/datasets/pyscripts/duration_calculator.py and of the vocabulary-loading
  initialization of src/speechain/tokenizer/abs.py (repository
  bagustris/SpeeChain), together with proofs about it.

  Modelling conventions:
  * Python floats are modelled as exact rationals; `round(x, 2)` is modelled
    by rounding to the nearest hundredth.
  * Python dicts are modelled as ordered association lists with in-place
    value overwrite on key collision, which matches the insertion-order
    semantics of Python dicts.  Two dicts are compared the way Python `==`
    compares them: by the key -> value mapping, via `dlookup`.
  * `collections.Counter` iteration order (first-occurrence order of the
    counted items) is modelled by `counter_keys`.
  * Python `sorted` with `reverse=True` is a stable sort; it is modelled by
    the stable insertion sort `sort_desc`.
-/

namespace SpeeChain

/-- Model of Python `round(x, 2)`: round to the nearest hundredth.  (Python
rounds halves to even on binary floats; exact ties never occur in the claims
settled here, and away from ties every reasonable rounding agrees.) -/
def round2 (x : ℚ) : ℚ := ((round (x * 100) : ℤ) : ℚ) / 100

/-- One interval of a TextGrid tier: a time span with a text label, exposing
`minTime`, `maxTime` and `mark` like the intervals of the `textgrid` package. -/
structure Interval where
  minTime : ℚ
  maxTime : ℚ
  mark : String
deriving DecidableEq

/-- The marks treated as silence: the Python list literal `['sp', '', 'sil']`
used by `cal_duration_by_tg`. -/
def silence_marks : List String := ["sp", "", "sil"]

/-- One parsed TextGrid alignment file.  `name` models
`os.path.basename(tg_file).split('.')[0]`, `words` models
`text_grid.tiers[0].intervals` and `phns` models `text_grid.tiers[1].intervals`. -/
structure TGFile where
  name : String
  words : List Interval
  phns : List Interval
deriving DecidableEq

/-! ### Python dicts as ordered association lists -/

/-- Lookup (`d[k]` / `k in d`) in an association list modelling a Python dict. -/
def dlookup {κ α : Type} [DecidableEq κ] : List (κ × α) → κ → Option α
  | [], _ => none
  | (k0, v) :: rest, k => if k0 = k then some v else dlookup rest k

/-- Assignment `d[k] = v` on a Python dict: overwrite in place if the key is
present, otherwise append the new entry at the end. -/
def dictSet {κ α : Type} [DecidableEq κ] : List (κ × α) → κ → α → List (κ × α)
  | [], k, v => [(k, v)]
  | (k0, v0) :: rest, k, v =>
    if k0 = k then (k0, v) :: rest else (k0, v0) :: dictSet rest k v

/-- Removal `d.pop(k)` on a Python dict: drop the entry of key `k` (dict keys
are unique, so dropping the first matching entry drops the entry). -/
def dictPop {κ α : Type} [DecidableEq κ] : List (κ × α) → κ → List (κ × α)
  | [], _ => []
  | (k0, v0) :: rest, k =>
    if k0 = k then rest else (k0, v0) :: dictPop rest k

/-- Update `d1.update(d2)` on Python dicts: assign every entry of `d2` into
`d1`, in order. -/
def dictUpdate {κ α : Type} [DecidableEq κ] (d1 d2 : List (κ × α)) : List (κ × α) :=
  d2.foldl (fun d p => dictSet d p.1 p.2) d1

/-- The key list of a dict, in insertion order. -/
def dkeys {κ α : Type} (d : List (κ × α)) : List κ := d.map Prod.fst

/-- Well-formedness of a dict: its keys are pairwise distinct.  Every dict
built from `[]` by `dictSet` and `dictPop` satisfies it. -/
def NodupKeys {κ α : Type} (d : List (κ × α)) : Prop := (dkeys d).Nodup

/-! ### The phoneme-tier scan of `cal_duration_by_tg` -/

/-- The word-boundary dict of one utterance, built from the word tier:
`{round(word.maxTime, 2): word.mark not in ['sp', '', 'sil'] for word in tiers[0]}`.
Later words overwrite earlier ones on equal rounded end times, like the Python
dict comprehension. -/
def word_boundary_dict (words : List Interval) : List (ℚ × Bool) :=
  words.foldl (fun d w => dictSet d (round2 w.maxTime) (decide (w.mark ∉ silence_marks))) []

/-- The body of the per-phoneme loop of `cal_duration_by_tg` without the final
word-boundary insertion: appends a non-silence token (stress stripped when
`retain_stress` is false, `spn` mapped to `<unk>`) with its rounded duration,
or appends a fresh `<space>` token, or merges the silence duration into the
last duration entry.  `st.2.getLast?.getD 0` models `idx2duration[...][-1]`;
its default branch is unreachable from the empty state (Python would raise
`IndexError` there). -/
def phn_step_core (retain_stress : Bool) (st : List String × List ℚ)
    (phn : Interval) : List String × List ℚ :=
  let phn_duration := round2 (phn.maxTime - phn.minTime)
  if phn.mark ∉ silence_marks then
    let phn_token :=
      if !retain_stress && phn.mark.back.isDigit then phn.mark.dropRight 1 else phn.mark
    (st.1 ++ [if phn_token ≠ "spn" then phn_token else "<unk>"], st.2 ++ [phn_duration])
  else
    if st.1.length = 0 ∨ st.1.getLast? ≠ some "<space>" then
      (st.1 ++ ["<space>"], st.2 ++ [phn_duration])
    else
      (st.1, st.2.dropLast ++ [st.2.getLast?.getD 0 + phn_duration])

/-- One full iteration of the per-phoneme loop of `cal_duration_by_tg`:
the core step followed by the word-boundary `<space>` insertion when
`round(phn.maxTime, 2)` is a key of the word-boundary dict with value true. -/
def stepPhn (wb : List (ℚ × Bool)) (retain_stress : Bool)
    (st : List String × List ℚ) (phn : Interval) : List String × List ℚ :=
  let phn_boundary := round2 phn.maxTime
  let st := phn_step_core retain_stress st phn
  if dlookup wb phn_boundary = some true then
    (st.1 ++ ["<space>"], st.2 ++ [round2 0])
  else st

/-- The scan of a phoneme tier starting from the freshly assigned empty
sequences `idx2text[file_name], idx2duration[file_name] = [], []`. -/
def scan (wb : List (ℚ × Bool)) (retain_stress : Bool)
    (phns : List Interval) : List String × List ℚ :=
  phns.foldl (stepPhn wb retain_stress) ([], [])

/-- The token and duration sequences computed for one alignment file. -/
def cal_utt (retain_stress : Bool) (f : TGFile) : List String × List ℚ :=
  scan (word_boundary_dict f.words) retain_stress f.phns

/-- The net effect of one iteration of the per-file loop of
`cal_duration_by_tg` on the pair of dicts: the file's sequences are stored
under its name, then removed again when the token sequence is exactly
`['<space>']`. -/
def cal_step (retain_stress : Bool)
    (m : List (String × List String) × List (String × List ℚ)) (f : TGFile) :
    List (String × List String) × List (String × List ℚ) :=
  let r := cal_utt retain_stress f
  if r.1 = ["<space>"] then (dictPop m.1 f.name, dictPop m.2 f.name)
  else (dictSet m.1 f.name r.1, dictSet m.2 f.name r.2)

/-- `cal_duration_by_tg`: processes the alignment files in order and returns
the pair `(idx2text, idx2duration)`. -/
def cal_duration_by_tg (tg_file_list : List TGFile) (retain_stress : Bool) :
    List (String × List String) × List (String × List ℚ) :=
  tg_file_list.foldl (cal_step retain_stress) ([], [])

/-- The subset restriction of a global dict performed by
`dump_subset_metadata`:
`{index: d[index] for index in subset_indices if index in d.keys()}`. -/
def subset_filter {α : Type} (subset_indices : List String)
    (d : List (String × α)) : List (String × α) :=
  subset_indices.filterMap (fun i => (dlookup d i).map (fun v => (i, v)))

/-! ### The vocabulary builder of `dump_subset_metadata` -/

/-- The distinct elements of a list in first-occurrence order: the key order
of `collections.Counter(l)`. -/
def counter_keys : List String → List String
  | [] => []
  | x :: xs => x :: counter_keys (xs.filter (fun y => y ≠ x))
termination_by l => l.length
decreasing_by
  simp only [List.length_cons]
  exact Nat.lt_succ_of_le (List.length_filter_le _ xs)

/-- The item list of `collections.Counter(l)`: each distinct element paired
with its occurrence count, in first-occurrence order. -/
def counter_items (l : List String) : List (String × ℕ) :=
  (counter_keys l).map (fun t => (t, l.count t))

/-- Insertion into a list sorted by weakly decreasing count: the new element
goes after every element of count greater than or equal to its own.  This is
the insertion step of a stable descending sort. -/
def insert_desc (x : String × ℕ) : List (String × ℕ) → List (String × ℕ)
  | [] => [x]
  | y :: ys => if y.2 < x.2 then x :: y :: ys else y :: insert_desc x ys

/-- Stable sort by descending count, modelling
`sorted(Counter(subset_phns).items(), key=lambda x: x[1], reverse=True)`. -/
def sort_desc (l : List (String × ℕ)) : List (String × ℕ) :=
  l.foldl (fun acc x => insert_desc x acc) []

/-- The ranked token list placed between `<blank>` and `<unk>` in the
vocabulary: tokens sorted by descending count, with `'<unk>'` removed again
when present (`subset_phns.remove('<unk>')`). -/
def ranked_phns (texts : List (List String)) : List String :=
  let subset_phns := texts.foldl (· ++ ·) []
  let phns := (sort_desc (counter_items subset_phns)).map Prod.fst
  if "<unk>" ∈ phns then phns.erase "<unk>" else phns

/-- The vocabulary built by `dump_subset_metadata` from the token sequences of
a subset: `["<blank>"] + subset_phns + ['<unk>', '<sos/eos>']`. -/
def build_vocab (texts : List (List String)) : List String :=
  ["<blank>"] ++ ranked_phns texts ++ ["<unk>", "<sos/eos>"]

/-- The position of the first occurrence of `t` in `l` (length of `l` when
absent). -/
def first_pos : List String → String → ℕ
  | [], _ => 0
  | x :: xs, t => if x = t then 0 else first_pos xs t + 1

/-! ### The parallel driver of `main` -/

/-- The stride slice `l[i::n]` (for `i < n`): the elements whose index is
congruent to `i` modulo `n`. -/
def stride_slice (l : List TGFile) (i n : ℕ) : List TGFile :=
  (l.enum.filter (fun p => p.1 % n == i)).map Prod.snd

/-- The parallel computation of `main`: the file list is split into `ncpu`
round-robin chunks `tg_file_list[i::ncpu]`, each chunk is processed by
`cal_duration_by_tg` independently, and the per-chunk dict pairs are merged
with `dict.update` in chunk order. -/
def parallel_cal (tg_file_list : List TGFile) (retain_stress : Bool) (ncpu : ℕ) :
    List (String × List String) × List (String × List ℚ) :=
  let text_duration_results :=
    (List.range ncpu).map (fun i => cal_duration_by_tg (stride_slice tg_file_list i ncpu) retain_stress)
  text_duration_results.foldl (fun m r => (dictUpdate m.1 r.1, dictUpdate m.2 r.2)) ([], [])

/-! ### The `Tokenizer` constructor of `speechain/tokenizer/abs.py` -/

/-- The external collaborators of `Tokenizer.__init__`, modelled abstractly:
`parse_path_args` and `os.path.exists` from the utility modules, and
`load_idx2data_file(path, do_separate=False)`, which yields the
index-to-token dict read from the vocabulary file at `path`. -/
structure TkEnv where
  parse_path_args : String → String
  path_exists : String → Bool
  load_idx2data_file : String → List (ℕ × String)

/-- The derived member variables registered by `Tokenizer.__init__`. -/
structure TkFields where
  idx2token : List (ℕ × String)
  token2idx : List (String × ℕ)
  vocab_size : ℕ
  sos_eos_idx : ℕ
  ignore_idx : ℕ
  unk_idx : ℕ
deriving DecidableEq

/-- The body of the `try` block (and of the `except KeyError` block) of
`Tokenizer.__init__`: reverse the `idx2token` dict, take the vocabulary size,
and look up the three reserved symbols.  A failing lookup raises `KeyError`,
modelled by `none`. -/
def build_fields (idx2token : List (ℕ × String)) : Option TkFields :=
  let token2idx := idx2token.foldl (fun d p => dictSet d p.2 p.1) []
  match dlookup token2idx "<sos/eos>", dlookup token2idx "<blank>",
      dlookup token2idx "<unk>" with
  | some s, some b, some u =>
    some ⟨idx2token, token2idx, token2idx.length, s, b, u⟩
  | _, _, _ => none

/-- The initial resolution of `self.token_vocab`: when `copy_path` is given
and `os.path.join(copy_path, 'token_vocab')` exists, that backup path is used,
otherwise `parse_path_args(token_vocab)`. -/
def init_token_vocab (env : TkEnv) (token_vocab : String)
    (copy_path : Option String) : String :=
  match copy_path with
  | some cp =>
    let cp := env.parse_path_args cp
    if env.path_exists (cp ++ "/token_vocab") then cp ++ "/token_vocab"
    else env.parse_path_args token_vocab
  | none => env.parse_path_args token_vocab

/-- The reserved-symbol registration of `Tokenizer.__init__` with its single
`except KeyError` retry.  Returns the final `self.token_vocab` path together
with the derived fields, or `none` when a reserved symbol is missing on the
retry as well (the second `KeyError` propagates to the caller). -/
def tokenizer_init (env : TkEnv) (token_vocab : String)
    (copy_path : Option String) : Option (String × TkFields) :=
  let tv := init_token_vocab env token_vocab copy_path
  match build_fields (env.load_idx2data_file tv) with
  | some f => some (tv, f)
  | none =>
    let tv2 := env.parse_path_args token_vocab
    match build_fields (env.load_idx2data_file tv2) with
    | some f => some (tv2, f)
    | none => none


/-! ### Basic dict lemmas -/

theorem dlookup_dictSet_self {κ α : Type} [DecidableEq κ] (d : List (κ × α)) (k : κ) (v : α) :
    dlookup (dictSet d k v) k = some v := by
  induction d with
  | nil => simp [dictSet, dlookup]
  | cons p rest ih =>
    obtain ⟨k0, v0⟩ := p
    by_cases h : k0 = k
    · simp [dictSet, h, dlookup]
    · simp [dictSet, h, dlookup, ih]

theorem dlookup_dictSet_ne {κ α : Type} [DecidableEq κ] (d : List (κ × α)) {k k' : κ}
    (v : α) (h : k' ≠ k) : dlookup (dictSet d k v) k' = dlookup d k' := by
  have h' : k ≠ k' := Ne.symm h
  induction d with
  | nil => simp [dictSet, dlookup, h']
  | cons p rest ih =>
    obtain ⟨k0, v0⟩ := p
    by_cases h0 : k0 = k
    · subst h0
      simp [dictSet, dlookup, h']
    · simp [dictSet, h0, dlookup, ih]

theorem dlookup_dictPop_ne {κ α : Type} [DecidableEq κ] (d : List (κ × α)) {k k' : κ}
    (h : k' ≠ k) : dlookup (dictPop d k) k' = dlookup d k' := by
  have h' : k ≠ k' := Ne.symm h
  induction d with
  | nil => simp [dictPop]
  | cons p rest ih =>
    obtain ⟨k0, v0⟩ := p
    by_cases h0 : k0 = k
    · subst h0
      simp [dictPop, dlookup, h']
    · simp [dictPop, h0, dlookup, ih]

theorem dlookup_eq_none_of_not_mem {κ α : Type} [DecidableEq κ] {d : List (κ × α)} {k : κ}
    (h : k ∉ dkeys d) : dlookup d k = none := by
  induction d with
  | nil => simp [dlookup]
  | cons p rest ih =>
    obtain ⟨k0, v0⟩ := p
    simp only [dkeys, List.map_cons, List.mem_cons, not_or] at h
    have h1 : k0 ≠ k := Ne.symm h.1
    have h2 : dlookup rest k = none := ih (by simpa [dkeys] using h.2)
    simp [dlookup, h1, h2]

theorem not_mem_dkeys_of_dlookup_eq_none {κ α : Type} [DecidableEq κ] {d : List (κ × α)}
    {k : κ} (h : dlookup d k = none) : k ∉ dkeys d := by
  induction d with
  | nil => simp [dkeys]
  | cons p rest ih =>
    obtain ⟨k0, v0⟩ := p
    by_cases h0 : k0 = k
    · simp [dlookup, h0] at h
    · simp only [dlookup, if_neg h0] at h
      have h2 := ih h
      simp only [dkeys, List.map_cons, List.mem_cons, not_or]
      exact ⟨Ne.symm h0, by simpa [dkeys] using h2⟩

theorem dlookup_dictPop_self {κ α : Type} [DecidableEq κ] {d : List (κ × α)} {k : κ}
    (hd : NodupKeys d) : dlookup (dictPop d k) k = none := by
  induction d with
  | nil => simp [dictPop, dlookup]
  | cons p rest ih =>
    obtain ⟨k0, v0⟩ := p
    simp only [NodupKeys, dkeys, List.map_cons, List.nodup_cons] at hd
    by_cases h0 : k0 = k
    · subst h0
      simp only [dictPop, if_pos rfl]
      exact dlookup_eq_none_of_not_mem (by simpa [dkeys] using hd.1)
    · simp [dictPop, h0, dlookup, ih (by simpa [NodupKeys, dkeys] using hd.2)]

theorem dkeys_dictSet {κ α : Type} [DecidableEq κ] (d : List (κ × α)) (k : κ) (v : α) :
    dkeys (dictSet d k v) = if k ∈ dkeys d then dkeys d else dkeys d ++ [k] := by
  induction d with
  | nil => simp [dictSet, dkeys]
  | cons p rest ih =>
    obtain ⟨k0, v0⟩ := p
    by_cases h0 : k0 = k
    · subst h0
      simp [dictSet, dkeys]
    · have hkk0 : ¬ k = k0 := Ne.symm h0
      simp only [dictSet, if_neg h0, dkeys, List.map_cons]
      simp only [dkeys] at ih
      rw [ih]
      by_cases hm : k ∈ List.map Prod.fst rest
      · simp [List.mem_cons, hm, hkk0]
      · simp [List.mem_cons, hm, hkk0]

theorem dkeys_dictPop {κ α : Type} [DecidableEq κ] (d : List (κ × α)) (k : κ) :
    dkeys (dictPop d k) = (dkeys d).erase k := by
  induction d with
  | nil => simp [dictPop, dkeys]
  | cons p rest ih =>
    obtain ⟨k0, v0⟩ := p
    by_cases h0 : k0 = k
    · subst h0
      simp [dictPop, dkeys, List.erase_cons_head]
    · simp only [dictPop, if_neg h0, dkeys, List.map_cons, List.erase_cons]
      simp only [dkeys] at ih
      rw [ih]
      simp [h0]

theorem nodupKeys_dictSet {κ α : Type} [DecidableEq κ] {d : List (κ × α)} (k : κ) (v : α)
    (hd : NodupKeys d) : NodupKeys (dictSet d k v) := by
  unfold NodupKeys
  rw [dkeys_dictSet]
  by_cases hm : k ∈ dkeys d
  · rw [if_pos hm]
    exact hd
  · rw [if_neg hm]
    exact List.Nodup.append hd (List.nodup_singleton k)
      (by simp [List.disjoint_singleton, hm])

theorem nodupKeys_dictPop {κ α : Type} [DecidableEq κ] {d : List (κ × α)} (k : κ)
    (hd : NodupKeys d) : NodupKeys (dictPop d k) := by
  unfold NodupKeys
  rw [dkeys_dictPop]
  exact hd.erase k

theorem dlookup_dictUpdate_of_none {κ α : Type} [DecidableEq κ] {d2 : List (κ × α)}
    (d1 : List (κ × α)) {k : κ} (h : dlookup d2 k = none) :
    dlookup (dictUpdate d1 d2) k = dlookup d1 k := by
  induction d2 generalizing d1 with
  | nil => simp [dictUpdate]
  | cons p rest ih =>
    obtain ⟨k2, v2⟩ := p
    by_cases h2 : k2 = k
    · simp [dlookup, h2] at h
    · simp only [dlookup, if_neg h2] at h
      show dlookup (dictUpdate (dictSet d1 k2 v2) rest) k = dlookup d1 k
      rw [ih (dictSet d1 k2 v2) h, dlookup_dictSet_ne _ _ (Ne.symm h2)]

theorem dlookup_dictUpdate_of_some {κ α : Type} [DecidableEq κ] {d2 : List (κ × α)}
    (d1 : List (κ × α)) {k : κ} {v : α} (hd : NodupKeys d2) (h : dlookup d2 k = some v) :
    dlookup (dictUpdate d1 d2) k = some v := by
  induction d2 generalizing d1 with
  | nil => simp [dlookup] at h
  | cons p rest ih =>
    obtain ⟨k2, v2⟩ := p
    simp only [NodupKeys, dkeys, List.map_cons, List.nodup_cons] at hd
    by_cases h2 : k2 = k
    · subst h2
      have h' : v2 = v := by simpa [dlookup] using h
      subst h'
      show dlookup (dictUpdate (dictSet d1 k2 v2) rest) k2 = some v2
      rw [dlookup_dictUpdate_of_none _
          (dlookup_eq_none_of_not_mem (by simpa [dkeys] using hd.1)),
        dlookup_dictSet_self]
    · simp only [dlookup, if_neg h2] at h
      show dlookup (dictUpdate (dictSet d1 k2 v2) rest) k = some v
      exact ih (dictSet d1 k2 v2) (by simpa [NodupKeys, dkeys] using hd.2) h


/-! ### Per-step behavior of the phoneme scan -/

theorem phn_step_core_silence_new (retain_stress : Bool) (text : List String)
    (dur : List ℚ) (p : Interval) (hm : p.mark ∈ silence_marks)
    (hlast : text = [] ∨ text.getLast? ≠ some "<space>") :
    phn_step_core retain_stress (text, dur) p =
      (text ++ ["<space>"], dur ++ [round2 (p.maxTime - p.minTime)]) := by
  have hm' : ¬ p.mark ∉ silence_marks := by simpa using hm
  have hcond : text.length = 0 ∨ text.getLast? ≠ some "<space>" := by
    rcases hlast with h | h
    · left
      simp [h]
    · right
      exact h
  simp only [phn_step_core, if_neg hm', if_pos hcond]

theorem phn_step_core_silence_merge (retain_stress : Bool) (text : List String)
    (ds : List ℚ) (d0 : ℚ) (p : Interval) (hm : p.mark ∈ silence_marks)
    (hlast : text.getLast? = some "<space>") :
    phn_step_core retain_stress (text, ds ++ [d0]) p =
      (text, ds ++ [d0 + round2 (p.maxTime - p.minTime)]) := by
  have hm' : ¬ p.mark ∉ silence_marks := by simpa using hm
  have hcond : ¬ (text.length = 0 ∨ text.getLast? ≠ some "<space>") := by
    push_neg
    refine ⟨?_, hlast⟩
    intro h0
    rw [List.length_eq_zero] at h0
    subst h0
    simp at hlast
  simp only [phn_step_core, if_neg hm', if_neg hcond]
  rw [List.dropLast_concat, List.getLast?_concat]
  simp

theorem phn_step_core_nonsilence (retain_stress : Bool) (st : List String × List ℚ)
    (p : Interval) (hm : p.mark ∉ silence_marks) :
    phn_step_core retain_stress st p =
      (st.1 ++ [if (if retain_stress = false ∧ p.mark.back.isDigit = true
                    then p.mark.dropRight 1 else p.mark) = "spn"
                then "<unk>"
                else if retain_stress = false ∧ p.mark.back.isDigit = true
                     then p.mark.dropRight 1 else p.mark],
       st.2 ++ [round2 (p.maxTime - p.minTime)]) := by
  simp only [phn_step_core, if_pos hm]
  have hb : (!retain_stress && p.mark.back.isDigit) = true ↔
      (retain_stress = false ∧ p.mark.back.isDigit = true) := by
    simp [Bool.and_eq_true, Bool.not_eq_true']
  by_cases hd : retain_stress = false ∧ p.mark.back.isDigit = true
  · rw [if_pos (hb.mpr hd), if_pos hd]
    by_cases hs : p.mark.dropRight 1 = "spn"
    · simp [hs]
    · simp [hs]
  · rw [if_neg (fun h => hd (hb.mp h)), if_neg hd]
    by_cases hs : p.mark = "spn"
    · simp [hs]
    · simp [hs]

theorem stepPhn_boundary_true (wb : List (ℚ × Bool)) (retain_stress : Bool)
    (st : List String × List ℚ) (p : Interval)
    (hb : dlookup wb (round2 p.maxTime) = some true) :
    stepPhn wb retain_stress st p =
      ((phn_step_core retain_stress st p).1 ++ ["<space>"],
       (phn_step_core retain_stress st p).2 ++ [round2 0]) := by
  simp only [stepPhn, if_pos hb]

theorem stepPhn_boundary_not_true (wb : List (ℚ × Bool)) (retain_stress : Bool)
    (st : List String × List ℚ) (p : Interval)
    (hb : ¬ dlookup wb (round2 p.maxTime) = some true) :
    stepPhn wb retain_stress st p = phn_step_core retain_stress st p := by
  simp only [stepPhn, if_neg hb]

/-- Claim C1: while scanning the phoneme tier, each silence phoneme (mark in
`{sp, "", sil}`) either appends a new `<space>` token with its rounded duration
(when the token sequence is empty or its last token is not `<space>`) or adds
its rounded duration to the last duration entry without appending a token (when
the last token is `<space>`); hence three consecutive silence phonemes of
durations 0.10, 0.20, 0.05 with no intervening word boundary collapse into one
`<space>` token of duration 0.35, while two silence runs separated by a
non-silence phoneme yield two separate `<space>` tokens. -/
theorem C1_silence_merge :
    (∀ (retain_stress : Bool) (text : List String) (dur : List ℚ) (p : Interval),
      p.mark ∈ silence_marks → (text = [] ∨ text.getLast? ≠ some "<space>") →
      phn_step_core retain_stress (text, dur) p =
        (text ++ ["<space>"], dur ++ [round2 (p.maxTime - p.minTime)]))
    ∧ (∀ (retain_stress : Bool) (text : List String) (ds : List ℚ) (d0 : ℚ) (p : Interval),
      p.mark ∈ silence_marks → text.getLast? = some "<space>" →
      phn_step_core retain_stress (text, ds ++ [d0]) p =
        (text, ds ++ [d0 + round2 (p.maxTime - p.minTime)]))
    ∧ scan (word_boundary_dict [⟨0, 0.35, "sp"⟩]) true
        [⟨0, 0.10, "sil"⟩, ⟨0.10, 0.30, "sp"⟩, ⟨0.30, 0.35, ""⟩] = (["<space>"], [0.35])
    ∧ scan (word_boundary_dict [⟨0, 0.3, "sp"⟩]) true
        [⟨0, 0.1, "sp"⟩, ⟨0.1, 0.2, "AA"⟩, ⟨0.2, 0.3, "sp"⟩]
        = (["<space>", "AA", "<space>"], [0.1, 0.1, 0.1]) := by
  refine ⟨phn_step_core_silence_new, phn_step_core_silence_merge, ?_, ?_⟩
  · norm_num [scan, stepPhn, phn_step_core, word_boundary_dict, dictSet, dlookup,
      silence_marks, round2, round_eq]
    simp
    norm_num
  · norm_num [scan, stepPhn, phn_step_core, word_boundary_dict, dictSet, dlookup,
      silence_marks, round2, round_eq]
    simp

/-- Witness for C1: concrete instances of the two universally quantified parts,
obtained by applying the claim theorem itself. -/
theorem C1_silence_merge_witness :
    phn_step_core true (["AA"], [1]) ⟨0, 1, "sp"⟩
      = (["AA", "<space>"], [1, round2 (1 - 0)])
    ∧ phn_step_core true (["<space>"], [] ++ [(1 : ℚ)]) ⟨0, 1, "sp"⟩
      = (["<space>"], [] ++ [1 + round2 (1 - 0)]) := by
  constructor
  · have h := C1_silence_merge.1 true ["AA"] [1] ⟨0, 1, "sp"⟩ (by decide) (by simp)
    simpa using h
  · have h := C1_silence_merge.2.1 true ["<space>"] [] 1 ⟨0, 1, "sp"⟩ (by decide) (by simp)
    simpa using h

/-- Claim C3: a phoneme interval whose rounded end time is a key of the word
boundary dict with value true gets a fresh `<space>` token of duration 0.00
appended after the phoneme is handled, even when the preceding token is already
`<space>`; the insertion never merges into an existing trailing space. -/
theorem C3_word_boundary_insertion :
    (∀ (words : List Interval) (retain_stress : Bool) (st : List String × List ℚ)
      (p : Interval),
      dlookup (word_boundary_dict words) (round2 p.maxTime) = some true →
      stepPhn (word_boundary_dict words) retain_stress st p =
        ((phn_step_core retain_stress st p).1 ++ ["<space>"],
         (phn_step_core retain_stress st p).2 ++ [round2 0]))
    ∧ stepPhn (word_boundary_dict [⟨0, 1, "W"⟩]) true (["<space>"], [0.5]) ⟨0.5, 1, "sp"⟩
        = (["<space>", "<space>"], [1, 0]) := by
  constructor
  · intro words rs st p hb
    exact stepPhn_boundary_true (word_boundary_dict words) rs st p hb
  · norm_num [stepPhn, phn_step_core, word_boundary_dict, dictSet, dlookup,
      silence_marks, round2, round_eq]
    simp

/-- Witness for C3: the universally quantified part applied at a concrete
boundary-hitting phoneme. -/
theorem C3_word_boundary_insertion_witness :
    stepPhn (word_boundary_dict [⟨0, 1, "W"⟩]) true (["x"], [2]) ⟨0, 1, "sp"⟩
      = ((phn_step_core true (["x"], [2]) ⟨0, 1, "sp"⟩).1 ++ ["<space>"],
         (phn_step_core true (["x"], [2]) ⟨0, 1, "sp"⟩).2 ++ [round2 0]) := by
  refine C3_word_boundary_insertion.1 [⟨0, 1, "W"⟩] true (["x"], [2]) ⟨0, 1, "sp"⟩ ?_
  norm_num [word_boundary_dict, dictSet, dlookup, silence_marks, round2, round_eq]
  decide

/-- Claim C4: a non-silence phoneme mark is emitted as the mark with its last
character removed when `retain_stress` is false and the last character is a
digit, and as the mark unchanged otherwise; a resulting token text `spn` is
mapped to `<unk>` for both values of `retain_stress`. -/
theorem C4_token_text :
    (∀ (retain_stress : Bool) (st : List String × List ℚ) (p : Interval),
      p.mark ∉ silence_marks →
      phn_step_core retain_stress st p =
        (st.1 ++ [if (if retain_stress = false ∧ p.mark.back.isDigit = true
                      then p.mark.dropRight 1 else p.mark) = "spn"
                  then "<unk>"
                  else if retain_stress = false ∧ p.mark.back.isDigit = true
                       then p.mark.dropRight 1 else p.mark],
         st.2 ++ [round2 (p.maxTime - p.minTime)]))
    ∧ phn_step_core false ([], []) ⟨0, 1, "AE1"⟩ = (["AE"], [round2 (1 - 0)])
    ∧ phn_step_core true ([], []) ⟨0, 1, "AE1"⟩ = (["AE1"], [round2 (1 - 0)])
    ∧ phn_step_core false ([], []) ⟨0, 1, "spn"⟩ = (["<unk>"], [round2 (1 - 0)])
    ∧ phn_step_core true ([], []) ⟨0, 1, "spn"⟩ = (["<unk>"], [round2 (1 - 0)])
    ∧ phn_step_core false ([], []) ⟨0, 1, "spn1"⟩ = (["<unk>"], [round2 (1 - 0)]) := by
  refine ⟨phn_step_core_nonsilence, ?_, ?_, ?_, ?_, ?_⟩
  all_goals rfl

/-- Witness for C4: the universally quantified part applied at a concrete
stress-carrying mark. -/
theorem C4_token_text_witness :
    phn_step_core false (["x"], [2]) ⟨0, 1, "IY2"⟩
      = (["x"] ++ [if (if false = false ∧ "IY2".back.isDigit = true
                       then "IY2".dropRight 1 else "IY2") = "spn"
                   then "<unk>"
                   else if false = false ∧ "IY2".back.isDigit = true
                        then "IY2".dropRight 1 else "IY2"],
         [2] ++ [round2 (1 - 0)]) := by
  exact C4_token_text.1 false (["x"], [2]) ⟨0, 1, "IY2"⟩ (by decide)

/-! ### Length preservation through the scan -/

theorem stepPhn_length (wb : List (ℚ × Bool)) (rs : Bool) (st : List String × List ℚ)
    (p : Interval) (h : st.1.length = st.2.length) :
    (stepPhn wb rs st p).1.length = (stepPhn wb rs st p).2.length := by
  obtain ⟨text, dur⟩ := st
  simp only at h
  have hcore : (phn_step_core rs (text, dur) p).1.length
      = (phn_step_core rs (text, dur) p).2.length := by
    by_cases hm : p.mark ∉ silence_marks
    · simp only [phn_step_core]
      rw [if_pos hm]
      simp [h]
    · by_cases hc : text.length = 0 ∨ text.getLast? ≠ some "<space>"
      · simp only [phn_step_core]
        rw [if_neg hm, if_pos hc]
        simp [h]
      · have hc' := hc
        push_neg at hc'
        obtain ⟨hc1, hc2⟩ := hc'
        have hdur : dur ≠ [] := by
          intro h0
          subst h0
          simp at h
          exact hc1 (by simp [h])
        have hlen : 1 ≤ dur.length := by
          cases dur
          · exact absurd rfl hdur
          · simp
        simp only [phn_step_core]
        rw [if_neg hm, if_neg hc]
        simp [List.length_dropLast, h]
        omega
  by_cases hb : dlookup wb (round2 p.maxTime) = some true
  · rw [stepPhn_boundary_true wb rs (text, dur) p hb]
    simp [hcore]
  · rw [stepPhn_boundary_not_true wb rs (text, dur) p hb]
    exact hcore

theorem scan_foldl_length (wb : List (ℚ × Bool)) (rs : Bool) :
    ∀ (phns : List Interval) (st : List String × List ℚ),
    st.1.length = st.2.length →
    ((phns.foldl (stepPhn wb rs) st).1).length = ((phns.foldl (stepPhn wb rs) st).2).length
  | [], _, h => h
  | p :: ps, st, h => by
    simp only [List.foldl_cons]
    exact scan_foldl_length wb rs ps _ (stepPhn_length wb rs st p h)

theorem cal_utt_length (rs : Bool) (f : TGFile) :
    (cal_utt rs f).1.length = (cal_utt rs f).2.length :=
  scan_foldl_length _ rs f.phns ([], []) rfl

/-! ### The per-file fold of `cal_duration_by_tg` -/

theorem cal_step_nodupKeys (rs : Bool)
    (m : List (String × List String) × List (String × List ℚ)) (f : TGFile)
    (h1 : NodupKeys m.1) (h2 : NodupKeys m.2) :
    NodupKeys (cal_step rs m f).1 ∧ NodupKeys (cal_step rs m f).2 := by
  by_cases hsp : (cal_utt rs f).1 = ["<space>"]
  · simp only [cal_step, if_pos hsp]
    exact ⟨nodupKeys_dictPop _ h1, nodupKeys_dictPop _ h2⟩
  · simp only [cal_step, if_neg hsp]
    exact ⟨nodupKeys_dictSet _ _ h1, nodupKeys_dictSet _ _ h2⟩

theorem cal_step_dkeys (rs : Bool)
    (m : List (String × List String) × List (String × List ℚ)) (f : TGFile)
    (h : dkeys m.1 = dkeys m.2) :
    dkeys (cal_step rs m f).1 = dkeys (cal_step rs m f).2 := by
  by_cases hsp : (cal_utt rs f).1 = ["<space>"]
  · simp only [cal_step, if_pos hsp]
    rw [dkeys_dictPop, dkeys_dictPop, h]
  · simp only [cal_step, if_neg hsp]
    rw [dkeys_dictSet, dkeys_dictSet, h]

theorem cal_step_lookup_ne (rs : Bool)
    (m : List (String × List String) × List (String × List ℚ)) (f : TGFile)
    {k : String} (hk : f.name ≠ k) :
    dlookup (cal_step rs m f).1 k = dlookup m.1 k
    ∧ dlookup (cal_step rs m f).2 k = dlookup m.2 k := by
  by_cases hsp : (cal_utt rs f).1 = ["<space>"]
  · simp only [cal_step, if_pos hsp]
    exact ⟨dlookup_dictPop_ne _ (Ne.symm hk), dlookup_dictPop_ne _ (Ne.symm hk)⟩
  · simp only [cal_step, if_neg hsp]
    exact ⟨dlookup_dictSet_ne _ _ (Ne.symm hk), dlookup_dictSet_ne _ _ (Ne.symm hk)⟩

theorem cal_foldl_untouched (rs : Bool) :
    ∀ (files : List TGFile)
    (m : List (String × List String) × List (String × List ℚ)) (k : String),
    (∀ f ∈ files, f.name ≠ k) →
    dlookup (files.foldl (cal_step rs) m).1 k = dlookup m.1 k
    ∧ dlookup (files.foldl (cal_step rs) m).2 k = dlookup m.2 k
  | [], _, _, _ => ⟨rfl, rfl⟩
  | f :: fs, m, k, h => by
    simp only [List.foldl_cons]
    have hf : f.name ≠ k := h f (by simp)
    have ih := cal_foldl_untouched rs fs (cal_step rs m f) k
      (fun g hg => h g (by simp [hg]))
    have hstep := cal_step_lookup_ne rs m f hf
    exact ⟨ih.1.trans hstep.1, ih.2.trans hstep.2⟩

theorem cal_foldl_nodupKeys (rs : Bool) :
    ∀ (files : List TGFile)
    (m : List (String × List String) × List (String × List ℚ)),
    NodupKeys m.1 → NodupKeys m.2 →
    NodupKeys (files.foldl (cal_step rs) m).1
    ∧ NodupKeys (files.foldl (cal_step rs) m).2
  | [], _, h1, h2 => ⟨h1, h2⟩
  | f :: fs, m, h1, h2 => by
    simp only [List.foldl_cons]
    have hstep := cal_step_nodupKeys rs m f h1 h2
    exact cal_foldl_nodupKeys rs fs (cal_step rs m f) hstep.1 hstep.2

theorem cal_foldl_dkeys (rs : Bool) :
    ∀ (files : List TGFile)
    (m : List (String × List String) × List (String × List ℚ)),
    dkeys m.1 = dkeys m.2 →
    dkeys (files.foldl (cal_step rs) m).1 = dkeys (files.foldl (cal_step rs) m).2
  | [], _, h => h
  | f :: fs, m, h => by
    simp only [List.foldl_cons]
    exact cal_foldl_dkeys rs fs (cal_step rs m f) (cal_step_dkeys rs m f h)

theorem cal_foldl_outcome (rs : Bool) :
    ∀ (files : List TGFile)
    (m : List (String × List String) × List (String × List ℚ)) (f : TGFile),
    f ∈ files → (files.map TGFile.name).Nodup → NodupKeys m.1 → NodupKeys m.2 →
    (((cal_utt rs f).1 = ["<space>"] →
      dlookup (files.foldl (cal_step rs) m).1 f.name = none
      ∧ dlookup (files.foldl (cal_step rs) m).2 f.name = none)
    ∧ ((cal_utt rs f).1 ≠ ["<space>"] →
      dlookup (files.foldl (cal_step rs) m).1 f.name = some (cal_utt rs f).1
      ∧ dlookup (files.foldl (cal_step rs) m).2 f.name = some (cal_utt rs f).2))
  | [], _, f, hf, _, _, _ => absurd hf (by simp)
  | g :: fs, m, f, hf, hnames, h1, h2 => by
    simp only [List.map_cons, List.nodup_cons] at hnames
    rcases List.mem_cons.mp hf with hgf | hmem
    · subst hgf
      have hrest : ∀ h ∈ fs, h.name ≠ f.name := by
        intro h hh
        intro he
        exact hnames.1 (he ▸ List.mem_map_of_mem TGFile.name hh)
      simp only [List.foldl_cons]
      have hun := cal_foldl_untouched rs fs (cal_step rs m f) f.name hrest
      constructor
      · intro hsp
        rw [hun.1, hun.2]
        simp only [cal_step, if_pos hsp]
        exact ⟨dlookup_dictPop_self h1, dlookup_dictPop_self h2⟩
      · intro hsp
        rw [hun.1, hun.2]
        simp only [cal_step, if_neg hsp]
        exact ⟨dlookup_dictSet_self _ _ _, dlookup_dictSet_self _ _ _⟩
    · simp only [List.foldl_cons]
      have hstep := cal_step_nodupKeys rs m g h1 h2
      exact cal_foldl_outcome rs fs (cal_step rs m g) f hmem hnames.2 hstep.1 hstep.2

theorem cal_foldl_pairlen (rs : Bool) :
    ∀ (files : List TGFile)
    (m : List (String × List String) × List (String × List ℚ)),
    NodupKeys m.1 → NodupKeys m.2 →
    (∀ k t d, dlookup m.1 k = some t → dlookup m.2 k = some d → t.length = d.length) →
    ∀ k t d, dlookup (files.foldl (cal_step rs) m).1 k = some t →
      dlookup (files.foldl (cal_step rs) m).2 k = some d → t.length = d.length
  | [], _, _, _, hP, k, t, d, h1, h2 => hP k t d h1 h2
  | f :: fs, m, hn1, hn2, hP, k, t, d, h1, h2 => by
    simp only [List.foldl_cons] at h1 h2
    have hstep := cal_step_nodupKeys rs m f hn1 hn2
    refine cal_foldl_pairlen rs fs (cal_step rs m f) hstep.1 hstep.2 ?_ k t d h1 h2
    intro k' t' d' h1' h2'
    by_cases hk : f.name = k'
    · subst hk
      by_cases hsp : (cal_utt rs f).1 = ["<space>"]
      · simp only [cal_step, if_pos hsp] at h1'
        rw [dlookup_dictPop_self hn1] at h1'
        exact absurd h1' (by simp)
      · simp only [cal_step, if_neg hsp] at h1' h2'
        rw [dlookup_dictSet_self] at h1' h2'
        have ht : t' = (cal_utt rs f).1 := by
          injection h1' with h
          exact h.symm
        have hd : d' = (cal_utt rs f).2 := by
          injection h2' with h
          exact h.symm
        rw [ht, hd]
        exact cal_utt_length rs f
    · have hne := cal_step_lookup_ne rs m f hk
      rw [hne.1] at h1'
      rw [hne.2] at h2'
      exact hP k' t' d' h1' h2'

/-! ### Subset filtering -/

theorem dlookup_isSome_iff {κ α : Type} [DecidableEq κ] (d : List (κ × α)) (k : κ) :
    (dlookup d k).isSome = true ↔ k ∈ dkeys d := by
  constructor
  · intro h
    by_contra hk
    rw [dlookup_eq_none_of_not_mem hk] at h
    simp at h
  · intro h
    cases hs : dlookup d k
    · exact absurd h (not_mem_dkeys_of_dlookup_eq_none hs)
    · simp

theorem subset_filter_map_fst {α : Type} (s : List String) (d : List (String × α)) :
    (subset_filter s d).map Prod.fst = s.filter (fun i => (dlookup d i).isSome) := by
  induction s with
  | nil => rfl
  | cons i s ih =>
    cases hd : dlookup d i
    · simpa [subset_filter, List.filterMap_cons, List.filter_cons, hd]
        using ih
    · simpa [subset_filter, List.filterMap_cons, List.filter_cons, hd]
        using ih

theorem dlookup_isSome_congr {α β : Type} (d1 : List (String × α)) (d2 : List (String × β))
    (h : dkeys d1 = dkeys d2) (i : String) :
    (dlookup d1 i).isSome = (dlookup d2 i).isSome := by
  have e1 := dlookup_isSome_iff d1 i
  have e2 := dlookup_isSome_iff d2 i
  rw [h] at e1
  have h12 : (dlookup d1 i).isSome = true ↔ (dlookup d2 i).isSome = true :=
    e1.trans e2.symm
  cases hb1 : (dlookup d1 i).isSome <;> cases hb2 : (dlookup d2 i).isSome <;> simp_all

/-! ### Claims C2, C5, C10 -/

/-- Claim C2: the token sequence and the duration sequence of an utterance
have equal length at every intermediate step of the phoneme-tier scan (after
any prefix of the tier has been processed), and for every utterance kept in
the output of `cal_duration_by_tg`. -/
theorem C2_length_invariant :
    (∀ (wb : List (ℚ × Bool)) (rs : Bool) (phns : List Interval) (n : ℕ),
      ((scan wb rs (phns.take n)).1).length = ((scan wb rs (phns.take n)).2).length)
    ∧ (∀ (files : List TGFile) (rs : Bool) (k : String) (t : List String) (d : List ℚ),
      dlookup (cal_duration_by_tg files rs).1 k = some t →
      dlookup (cal_duration_by_tg files rs).2 k = some d →
      t.length = d.length) := by
  constructor
  · intro wb rs phns n
    exact scan_foldl_length wb rs (phns.take n) ([], []) rfl
  · intro files rs k t d h1 h2
    refine cal_foldl_pairlen rs files ([], []) (by simp [NodupKeys, dkeys])
      (by simp [NodupKeys, dkeys]) ?_ k t d h1 h2
    intro k' t' d' h1' _
    simp [dlookup] at h1'

/-- Witness for C2: the output part applied to a one-file list with a single
`AA` phoneme. -/
theorem C2_length_invariant_witness :
    (["AA"] : List String).length = ([(1 : ℚ)] : List ℚ).length := by
  have hc : cal_duration_by_tg [⟨"x", [], [⟨0, 1, "AA"⟩]⟩] true
      = ([("x", ["AA"])], [("x", [1])]) := by
    norm_num [cal_duration_by_tg, cal_step, cal_utt, scan, stepPhn, phn_step_core,
      word_boundary_dict, dictSet, dlookup, silence_marks, round2, round_eq]
    simp
  exact C2_length_invariant.2 [⟨"x", [], [⟨0, 1, "AA"⟩]⟩] true "x" ["AA"] [1]
    (by rw [hc]; simp [dlookup]) (by rw [hc]; simp [dlookup])

/-- Counterexample to claim C5 as stated: with two alignment files whose
basenames collide (possible since files are collected recursively from
subfolders), a silence-only second file removes the key that the first file
had filled with the non-silence-only sequence `["AA"]`, so a sequence other
than `["<space>"]` is not kept in the output. -/
theorem C5_counterexample :
    (cal_utt true ⟨"x", [], [⟨0, 1, "AA"⟩]⟩).1 ≠ ["<space>"]
    ∧ dlookup (cal_duration_by_tg
        [⟨"x", [], [⟨0, 1, "AA"⟩]⟩, ⟨"x", [⟨0, 1, "sp"⟩], [⟨0, 1, "sp"⟩]⟩] true).1 "x" = none
    ∧ dlookup (cal_duration_by_tg
        [⟨"x", [], [⟨0, 1, "AA"⟩]⟩, ⟨"x", [⟨0, 1, "sp"⟩], [⟨0, 1, "sp"⟩]⟩] true).2 "x" = none := by
  refine ⟨?_, ?_, ?_⟩
  · norm_num [cal_utt, scan, stepPhn, phn_step_core, word_boundary_dict, dictSet,
      dlookup, silence_marks, round2, round_eq]
    simp
  · norm_num [cal_duration_by_tg, cal_step, cal_utt, scan, stepPhn, phn_step_core,
      word_boundary_dict, dictSet, dictPop, dlookup, silence_marks, round2, round_eq]
  · norm_num [cal_duration_by_tg, cal_step, cal_utt, scan, stepPhn, phn_step_core,
      word_boundary_dict, dictSet, dictPop, dlookup, silence_marks, round2, round_eq]

/-- Claim C5 as amended: provided the processed files have pairwise distinct
utterance ids (the spec's standing assumption), an utterance whose final token
sequence is exactly `["<space>"]` is removed from both output mappings, and an
utterance with any other sequence is kept in both with its computed value. -/
theorem C5_silence_only_discard (files : List TGFile) (rs : Bool) (f : TGFile)
    (hf : f ∈ files) (hnames : (files.map TGFile.name).Nodup) :
    ((cal_utt rs f).1 = ["<space>"] →
      dlookup (cal_duration_by_tg files rs).1 f.name = none
      ∧ dlookup (cal_duration_by_tg files rs).2 f.name = none)
    ∧ ((cal_utt rs f).1 ≠ ["<space>"] →
      dlookup (cal_duration_by_tg files rs).1 f.name = some (cal_utt rs f).1
      ∧ dlookup (cal_duration_by_tg files rs).2 f.name = some (cal_utt rs f).2) :=
  cal_foldl_outcome rs files ([], []) f hf hnames
    (by simp [NodupKeys, dkeys]) (by simp [NodupKeys, dkeys])

/-- Witness for C5: both directions of the amended claim at concrete one-file
inputs (a silence-only utterance and a kept utterance). -/
theorem C5_silence_only_discard_witness :
    (dlookup (cal_duration_by_tg [⟨"y", [⟨0, 1, "sp"⟩], [⟨0, 1, "sp"⟩]⟩] true).1 "y" = none
      ∧ dlookup (cal_duration_by_tg [⟨"y", [⟨0, 1, "sp"⟩], [⟨0, 1, "sp"⟩]⟩] true).2 "y" = none)
    ∧ (dlookup (cal_duration_by_tg [⟨"z", [], [⟨0, 1, "AA"⟩]⟩] true).1 "z"
        = some (cal_utt true ⟨"z", [], [⟨0, 1, "AA"⟩]⟩).1
      ∧ dlookup (cal_duration_by_tg [⟨"z", [], [⟨0, 1, "AA"⟩]⟩] true).2 "z"
        = some (cal_utt true ⟨"z", [], [⟨0, 1, "AA"⟩]⟩).2) := by
  constructor
  · exact (C5_silence_only_discard [⟨"y", [⟨0, 1, "sp"⟩], [⟨0, 1, "sp"⟩]⟩] true
      ⟨"y", [⟨0, 1, "sp"⟩], [⟨0, 1, "sp"⟩]⟩ (by simp) (by simp)).1
      (by norm_num [cal_utt, scan, stepPhn, phn_step_core, word_boundary_dict,
        dictSet, dlookup, silence_marks, round2, round_eq])
  · exact (C5_silence_only_discard [⟨"z", [], [⟨0, 1, "AA"⟩]⟩] true
      ⟨"z", [], [⟨0, 1, "AA"⟩]⟩ (by simp) (by simp)).2
      (by norm_num [cal_utt, scan, stepPhn, phn_step_core, word_boundary_dict,
        dictSet, dlookup, silence_marks, round2, round_eq]
          simp)

/-- Claim C10: after `cal_duration_by_tg` returns, `idx2text` and
`idx2duration` have exactly the same key sequence, and consequently the two
independently filtered subset mappings of `dump_subset_metadata` select
exactly the same utterance ids. -/
theorem C10_key_sets_match (files : List TGFile) (rs : Bool) :
    dkeys (cal_duration_by_tg files rs).1 = dkeys (cal_duration_by_tg files rs).2
    ∧ ∀ (subset_indices : List String),
      (subset_filter subset_indices (cal_duration_by_tg files rs).1).map Prod.fst
      = (subset_filter subset_indices (cal_duration_by_tg files rs).2).map Prod.fst := by
  have hk : dkeys (cal_duration_by_tg files rs).1
      = dkeys (cal_duration_by_tg files rs).2 :=
    cal_foldl_dkeys rs files ([], []) rfl
  refine ⟨hk, ?_⟩
  intro s
  rw [subset_filter_map_fst, subset_filter_map_fst]
  exact List.filter_congr (fun i _ => dlookup_isSome_congr _ _ hk i)

/-! ### Counter key order -/

theorem mem_counter_keys : ∀ (l : List String) (t : String), t ∈ counter_keys l → t ∈ l := by
  intro l
  induction l using counter_keys.induct with
  | case1 => simp [counter_keys]
  | case2 x xs ih =>
    intro t ht
    rw [counter_keys] at ht
    rcases List.mem_cons.mp ht with h | h
    · simp [h]
    · exact List.mem_cons_of_mem x (List.mem_of_mem_filter (ih t h))

theorem counter_keys_nodup : ∀ (l : List String), (counter_keys l).Nodup := by
  intro l
  induction l using counter_keys.induct with
  | case1 => simp [counter_keys]
  | case2 x xs ih =>
    rw [counter_keys]
    refine List.nodup_cons.mpr ⟨?_, ih⟩
    intro hx
    have h2 := (List.mem_filter.mp (mem_counter_keys _ x hx)).2
    simp at h2

theorem first_pos_cons_self (x : String) (xs : List String) : first_pos (x :: xs) x = 0 := by
  simp [first_pos]

theorem first_pos_cons_ne (x : String) (xs : List String) {t : String} (h : x ≠ t) :
    first_pos (x :: xs) t = first_pos xs t + 1 := by
  simp [first_pos, h]

theorem first_pos_filter_lt : ∀ (xs : List String) (p : String → Bool) {a b : String},
    a ∈ xs.filter p → b ∈ xs.filter p →
    first_pos (xs.filter p) a < first_pos (xs.filter p) b →
    first_pos xs a < first_pos xs b := by
  intro xs
  induction xs with
  | nil =>
    intro p a b ha _ _
    simp at ha
  | cons y ys ih =>
    intro p a b ha hb hlt
    by_cases hpy : p y = true
    · rw [List.filter_cons_of_pos hpy] at ha hb hlt
      by_cases hya : y = a
      · have hyb : y ≠ b := by
          intro h
          rw [show first_pos (y :: List.filter p ys) b = 0 by simp [first_pos, h]] at hlt
          omega
        rw [show first_pos (y :: ys) a = 0 by simp [first_pos, hya],
          first_pos_cons_ne y ys hyb]
        omega
      · by_cases hyb : y = b
        · rw [show first_pos (y :: List.filter p ys) b = 0 by simp [first_pos, hyb]] at hlt
          omega
        · rw [first_pos_cons_ne y _ hya, first_pos_cons_ne y _ hyb] at hlt
          have ha' : a ∈ ys.filter p := by
            rcases List.mem_cons.mp ha with h | h
            · exact absurd h.symm hya
            · exact h
          have hb' : b ∈ ys.filter p := by
            rcases List.mem_cons.mp hb with h | h
            · exact absurd h.symm hyb
            · exact h
          rw [first_pos_cons_ne y ys hya, first_pos_cons_ne y ys hyb]
          have := ih p ha' hb' (by omega)
          omega
    · rw [List.filter_cons_of_neg hpy] at ha hb hlt
      have hya : y ≠ a := by
        intro h
        subst h
        exact hpy (List.mem_filter.mp ha).2
      have hyb : y ≠ b := by
        intro h
        subst h
        exact hpy (List.mem_filter.mp hb).2
      rw [first_pos_cons_ne y ys hya, first_pos_cons_ne y ys hyb]
      have := ih p ha hb hlt
      omega

theorem counter_keys_pairwise : ∀ (l : List String),
    List.Pairwise (fun a b => first_pos l a < first_pos l b) (counter_keys l) := by
  intro l
  induction l using counter_keys.induct with
  | case1 => simp [counter_keys]
  | case2 x xs ih =>
    rw [counter_keys]
    refine List.pairwise_cons.mpr ⟨?_, ?_⟩
    · intro b hb
      have hbf := mem_counter_keys _ b hb
      have hbx : x ≠ b := by
        intro h
        subst h
        have h2 := (List.mem_filter.mp hbf).2
        simp at h2
      rw [first_pos_cons_self, first_pos_cons_ne x xs hbx]
      omega
    · refine List.Pairwise.imp_of_mem ?_ ih
      intro a b ha hb hab
      have haf := mem_counter_keys _ a ha
      have hbf := mem_counter_keys _ b hb
      have hxa : x ≠ a := by
        intro h
        subst h
        have h2 := (List.mem_filter.mp haf).2
        simp at h2
      have hxb : x ≠ b := by
        intro h
        subst h
        have h2 := (List.mem_filter.mp hbf).2
        simp at h2
      rw [first_pos_cons_ne x xs hxa, first_pos_cons_ne x xs hxb]
      have := first_pos_filter_lt xs _ haf hbf hab
      omega

/-! ### The stable descending sort -/

theorem insert_desc_perm (x : String × ℕ) : ∀ (l : List (String × ℕ)),
    (insert_desc x l).Perm (x :: l)
  | [] => List.Perm.refl _
  | y :: ys => by
    rw [insert_desc]
    by_cases h : y.2 < x.2
    · rw [if_pos h]
    · rw [if_neg h]
      exact ((insert_desc_perm x ys).cons y).trans (List.Perm.swap x y ys)

theorem sort_foldl_perm : ∀ (l acc : List (String × ℕ)),
    (l.foldl (fun acc x => insert_desc x acc) acc).Perm (acc ++ l)
  | [], acc => by simp
  | x :: l, acc => by
    simp only [List.foldl_cons]
    refine (sort_foldl_perm l (insert_desc x acc)).trans ?_
    refine (List.Perm.append_right l (insert_desc_perm x acc)).trans ?_
    exact List.perm_middle.symm

theorem sort_desc_perm (l : List (String × ℕ)) : (sort_desc l).Perm l := by
  simpa [sort_desc] using sort_foldl_perm l []

theorem insert_desc_pairwise {R : String × ℕ → String × ℕ → Prop} (x : String × ℕ) :
    ∀ (acc : List (String × ℕ)),
    List.Pairwise (fun a b => b.2 ≤ a.2 ∧ (a.2 ≤ b.2 → R a b)) acc →
    (∀ y ∈ acc, R y x) →
    List.Pairwise (fun a b => b.2 ≤ a.2 ∧ (a.2 ≤ b.2 → R a b)) (insert_desc x acc)
  | [], _, _ => by simp [insert_desc]
  | y :: ys, hp, hR => by
    rw [insert_desc]
    obtain ⟨hy, hys⟩ := List.pairwise_cons.mp hp
    by_cases h : y.2 < x.2
    · rw [if_pos h]
      refine List.pairwise_cons.mpr ⟨?_, hp⟩
      intro z hz
      rcases List.mem_cons.mp hz with rfl | hz'
      · exact ⟨Nat.le_of_lt h, fun hle => absurd h (Nat.not_lt.mpr hle)⟩
      · have hyz := hy z hz'
        exact ⟨Nat.le_trans hyz.1 (Nat.le_of_lt h),
          fun hle => absurd h (Nat.not_lt.mpr (Nat.le_trans hle hyz.1))⟩
    · rw [if_neg h]
      have hxy : x.2 ≤ y.2 := Nat.le_of_not_lt h
      refine List.pairwise_cons.mpr ⟨?_,
        insert_desc_pairwise x ys hys (fun z hz => hR z (List.mem_cons_of_mem y hz))⟩
      intro z hz
      have hz' := (insert_desc_perm x ys).mem_iff.mp hz
      rcases List.mem_cons.mp hz' with rfl | hz''
      · exact ⟨hxy, fun _ => hR y (List.mem_cons_self y ys)⟩
      · exact hy z hz''

theorem sort_foldl_pairwise {R : String × ℕ → String × ℕ → Prop} :
    ∀ (l acc : List (String × ℕ)),
    List.Pairwise R l →
    List.Pairwise (fun a b => b.2 ≤ a.2 ∧ (a.2 ≤ b.2 → R a b)) acc →
    (∀ y ∈ acc, ∀ x ∈ l, R y x) →
    List.Pairwise (fun a b => b.2 ≤ a.2 ∧ (a.2 ≤ b.2 → R a b))
      (l.foldl (fun acc x => insert_desc x acc) acc)
  | [], _, _, hacc, _ => hacc
  | x :: l, acc, hl, hacc, hmix => by
    simp only [List.foldl_cons]
    obtain ⟨hx, hl'⟩ := List.pairwise_cons.mp hl
    refine sort_foldl_pairwise l (insert_desc x acc) hl' ?_ ?_
    · exact insert_desc_pairwise x acc hacc
        (fun y hy => hmix y hy x (List.mem_cons_self x l))
    · intro y hy z hz
      rcases List.mem_cons.mp ((insert_desc_perm x acc).mem_iff.mp hy) with rfl | hy'
      · exact hx z hz
      · exact hmix y hy' z (List.mem_cons_of_mem x hz)

theorem sort_desc_pairwise {R : String × ℕ → String × ℕ → Prop}
    (l : List (String × ℕ)) (hl : List.Pairwise R l) :
    List.Pairwise (fun a b => b.2 ≤ a.2 ∧ (a.2 ≤ b.2 → R a b)) (sort_desc l) := by
  simpa [sort_desc] using sort_foldl_pairwise l [] hl (by simp) (by simp)

/-! ### The ranked token list -/

theorem counter_items_map_fst (l : List String) :
    (counter_items l).map Prod.fst = counter_keys l := by
  simp only [counter_items, List.map_map]
  exact List.map_id _

theorem counter_items_snd (l : List String) :
    ∀ p ∈ counter_items l, p.2 = l.count p.1 := by
  intro p hp
  obtain ⟨t, _, rfl⟩ := List.mem_map.mp hp
  rfl

theorem counter_items_pairwise (l : List String) :
    List.Pairwise (fun a b : String × ℕ => first_pos l a.1 < first_pos l b.1)
      (counter_items l) := by
  simp only [counter_items]
  exact List.pairwise_map.mpr (counter_keys_pairwise l)

theorem sorted_map_perm (l : List String) :
    ((sort_desc (counter_items l)).map Prod.fst).Perm (counter_keys l) := by
  have h := (sort_desc_perm (counter_items l)).map Prod.fst
  rwa [counter_items_map_fst] at h

theorem sorted_map_nodup (l : List String) :
    ((sort_desc (counter_items l)).map Prod.fst).Nodup :=
  (sorted_map_perm l).symm.nodup (counter_keys_nodup l)

theorem mem_sorted_map (l : List String) {t : String}
    (ht : t ∈ (sort_desc (counter_items l)).map Prod.fst) : t ∈ l :=
  mem_counter_keys l t ((sorted_map_perm l).mem_iff.mp ht)

theorem sorted_map_pairwise (l : List String) :
    List.Pairwise (fun a b =>
        l.count b ≤ l.count a ∧ (l.count a = l.count b → first_pos l a < first_pos l b))
      ((sort_desc (counter_items l)).map Prod.fst) := by
  have hS := sort_desc_pairwise (counter_items l) (counter_items_pairwise l)
  refine List.pairwise_map.mpr ?_
  refine List.Pairwise.imp_of_mem ?_ hS
  intro a b ha hb hab
  have ha2 : a.2 = l.count a.1 :=
    counter_items_snd l a ((sort_desc_perm _).mem_iff.mp ha)
  have hb2 : b.2 = l.count b.1 :=
    counter_items_snd l b ((sort_desc_perm _).mem_iff.mp hb)
  constructor
  · rw [← ha2, ← hb2]
    exact hab.1
  · intro hcc
    exact hab.2 (le_of_eq (ha2.trans (hcc.trans hb2.symm)))

theorem ranked_phns_sublist (texts : List (List String)) :
    (ranked_phns texts).Sublist
      ((sort_desc (counter_items (texts.foldl (· ++ ·) []))).map Prod.fst) := by
  show (if "<unk>" ∈ (sort_desc (counter_items (texts.foldl (· ++ ·) []))).map Prod.fst
        then ((sort_desc (counter_items (texts.foldl (· ++ ·) []))).map Prod.fst).erase "<unk>"
        else (sort_desc (counter_items (texts.foldl (· ++ ·) []))).map Prod.fst).Sublist _
  by_cases h : "<unk>" ∈ (sort_desc (counter_items (texts.foldl (· ++ ·) []))).map Prod.fst
  · rw [if_pos h]
    exact List.erase_sublist _ _
  · rw [if_neg h]

theorem ranked_phns_nodup (texts : List (List String)) : (ranked_phns texts).Nodup :=
  List.Nodup.sublist (ranked_phns_sublist texts) (sorted_map_nodup _)

theorem mem_ranked_phns (texts : List (List String)) {t : String}
    (ht : t ∈ ranked_phns texts) : t ∈ texts.foldl (· ++ ·) [] :=
  mem_sorted_map _ ((ranked_phns_sublist texts).subset ht)

theorem unk_not_mem_ranked_phns (texts : List (List String)) :
    "<unk>" ∉ ranked_phns texts := by
  have hnd := sorted_map_nodup (texts.foldl (· ++ ·) [])
  show "<unk>" ∉ (if "<unk>" ∈ (sort_desc (counter_items (texts.foldl (· ++ ·) []))).map Prod.fst
      then ((sort_desc (counter_items (texts.foldl (· ++ ·) []))).map Prod.fst).erase "<unk>"
      else (sort_desc (counter_items (texts.foldl (· ++ ·) []))).map Prod.fst)
  by_cases h : "<unk>" ∈ (sort_desc (counter_items (texts.foldl (· ++ ·) []))).map Prod.fst
  · rw [if_pos h]
    intro hmem
    exact ((hnd.mem_erase_iff).mp hmem).1 rfl
  · rw [if_neg h]
    exact h

/-- Counterexample to claim C6 as stated: a token sequence may itself contain
the reserved symbol `<blank>` (phoneme marks are arbitrary strings), in which
case the vocabulary `["<blank>"] + ranked + ["<unk>", "<sos/eos>"]` contains
`<blank>` twice; only `<unk>` is removed from the ranked tokens, `<blank>` and
`<sos/eos>` are not. -/
theorem C6_counterexample : ¬ (build_vocab [["<blank>"]]).Nodup := by
  have h : build_vocab [["<blank>"]] = ["<blank>", "<blank>", "<unk>", "<sos/eos>"] := by
    simp [build_vocab, ranked_phns, counter_items, counter_keys, sort_desc, insert_desc]
  rw [h]
  simp

/-- Claim C6 as amended: for any subset whose token sequences never contain
the reserved symbols `<blank>` or `<sos/eos>`, the vocabulary produced has
`<blank>` at index 0, `<unk>` and `<sos/eos>` as its last two entries in that
order, and contains no duplicate entries. -/
theorem C6_vocab_shape (texts : List (List String))
    (hres : ∀ t ∈ texts.foldl (· ++ ·) [], t ≠ "<blank>" ∧ t ≠ "<sos/eos>") :
    (build_vocab texts).head? = some "<blank>"
    ∧ (build_vocab texts).drop ((build_vocab texts).length - 2) = ["<unk>", "<sos/eos>"]
    ∧ (build_vocab texts).Nodup := by
  have hnodup := ranked_phns_nodup texts
  have hmem : ∀ t ∈ ranked_phns texts, t ∈ texts.foldl (· ++ ·) [] :=
    fun t ht => mem_ranked_phns texts ht
  refine ⟨rfl, ?_, ?_⟩
  · have hlen3 : (build_vocab texts).length = (ranked_phns texts).length + 3 := by
      simp [build_vocab]
    have hlen : (build_vocab texts).length - 2 = (ranked_phns texts).length + 1 := by
      omega
    rw [hlen]
    show ("<blank>" :: (ranked_phns texts ++ ["<unk>", "<sos/eos>"])).drop
      ((ranked_phns texts).length + 1) = _
    rw [List.drop_succ_cons]
    exact List.drop_left _ _
  · rw [show build_vocab texts
      = "<blank>" :: (ranked_phns texts ++ ["<unk>", "<sos/eos>"]) from rfl]
    refine List.nodup_cons.mpr ⟨?_, ?_⟩
    · intro hmem'
      rcases List.mem_append.mp hmem' with h | h
      · exact (hres _ (hmem _ h)).1 rfl
      · simp at h
    · refine List.nodup_append.mpr ⟨hnodup, by decide, ?_⟩
      rw [List.disjoint_left]
      intro a ha hb
      rcases (by simpa using hb : a = "<unk>" ∨ a = "<sos/eos>") with rfl | rfl
      · exact unk_not_mem_ranked_phns texts ha
      · exact (hres _ (hmem _ ha)).2 rfl

/-- Witness for C6: the amended claim applied to a concrete subset with
tokens `AA` and `<space>`. -/
theorem C6_vocab_shape_witness :
    (build_vocab [["AA", "<space>"]]).head? = some "<blank>"
    ∧ (build_vocab [["AA", "<space>"]]).drop ((build_vocab [["AA", "<space>"]]).length - 2)
      = ["<unk>", "<sos/eos>"]
    ∧ (build_vocab [["AA", "<space>"]]).Nodup :=
  C6_vocab_shape [["AA", "<space>"]] (by decide)

/-- Claim C7: in the vocabulary built for a subset, the ranked tokens between
`<blank>` and the final `["<unk>", "<sos/eos>"]` are ordered by weakly
decreasing occurrence count over the subset's concatenated token sequences,
and two tokens of equal count appear in the order of their first occurrence
in the concatenated sequences. -/
theorem C7_vocab_ranking (texts : List (List String)) :
    build_vocab texts = ["<blank>"] ++ ranked_phns texts ++ ["<unk>", "<sos/eos>"]
    ∧ List.Pairwise (fun a b =>
        (texts.foldl (· ++ ·) []).count b ≤ (texts.foldl (· ++ ·) []).count a
        ∧ ((texts.foldl (· ++ ·) []).count a = (texts.foldl (· ++ ·) []).count b →
           first_pos (texts.foldl (· ++ ·) []) a < first_pos (texts.foldl (· ++ ·) []) b))
      (ranked_phns texts) := by
  refine ⟨rfl, ?_⟩
  exact List.Pairwise.sublist (ranked_phns_sublist texts)
    (sorted_map_pairwise (texts.foldl (· ++ ·) []))

/-- Claim C9: when the reserved-symbol registration of `Tokenizer.__init__`
succeeds on the first attempt, the result is that of the first attempt and no
retry occurs; when it fails, the derived fields are all rebuilt from the
vocabulary loaded from the freshly re-resolved original path
`parse_path_args(token_vocab)`, and when a reserved symbol is still missing
there, the failure propagates to the caller (`none`). -/
theorem C9_tokenizer_retry :
    (∀ (env : TkEnv) (token_vocab : String) (copy_path : Option String) (f : TkFields),
      build_fields (env.load_idx2data_file (init_token_vocab env token_vocab copy_path))
        = some f →
      tokenizer_init env token_vocab copy_path
        = some (init_token_vocab env token_vocab copy_path, f))
    ∧ (∀ (env : TkEnv) (token_vocab : String) (copy_path : Option String),
      build_fields (env.load_idx2data_file (init_token_vocab env token_vocab copy_path))
        = none →
      tokenizer_init env token_vocab copy_path
        = (build_fields (env.load_idx2data_file (env.parse_path_args token_vocab))).map
            (fun f => (env.parse_path_args token_vocab, f))) := by
  constructor
  · intro env tv cp f h
    simp only [tokenizer_init, h]
  · intro env tv cp h
    simp only [tokenizer_init, h]
    cases h2 : build_fields (env.load_idx2data_file (env.parse_path_args tv)) <;>
      simp [h2]

/-- Witness for C9: the first-attempt-success direction applied to a concrete
environment whose vocabulary holds the three reserved symbols. -/
theorem C9_tokenizer_retry_witness :
    tokenizer_init ⟨fun s => s, fun _ => false,
        fun _ => [(0, "<sos/eos>"), (1, "<blank>"), (2, "<unk>")]⟩ "vocab" none
      = some ("vocab",
          ⟨[(0, "<sos/eos>"), (1, "<blank>"), (2, "<unk>")],
           [("<sos/eos>", 0), ("<blank>", 1), ("<unk>", 2)], 3, 0, 1, 2⟩) :=
  C9_tokenizer_retry.1 ⟨fun s => s, fun _ => false,
      fun _ => [(0, "<sos/eos>"), (1, "<blank>"), (2, "<unk>")]⟩ "vocab" none
    ⟨[(0, "<sos/eos>"), (1, "<blank>"), (2, "<unk>")],
     [("<sos/eos>", 0), ("<blank>", 1), ("<unk>", 2)], 3, 0, 1, 2⟩ (by rfl)

/-! ### Round-robin partitioning -/

theorem mem_stride_slice {l : List TGFile} {f : TGFile} {i n : ℕ} :
    f ∈ stride_slice l i n ↔ ∃ j, l.get? j = some f ∧ j % n = i := by
  simp only [stride_slice, List.mem_map, List.mem_filter]
  constructor
  · rintro ⟨⟨j, g⟩, ⟨hmem, hmod⟩, rfl⟩
    exact ⟨j, List.mem_enum_iff_get?.mp hmem, by simpa using hmod⟩
  · rintro ⟨j, hget, hmod⟩
    exact ⟨(j, f), ⟨List.mem_enum_iff_get?.mpr hget, by simpa using hmod⟩, rfl⟩

theorem stride_slice_sublist (l : List TGFile) (i n : ℕ) :
    (stride_slice l i n).Sublist l := by
  have h1 : (l.enum.filter (fun p => p.1 % n == i)).Sublist l.enum :=
    List.filter_sublist _
  have h2 := List.Sublist.map Prod.snd h1
  rw [List.enum_map_snd] at h2
  exact h2

theorem get?_name_inj {files : List TGFile} (hnd : (files.map TGFile.name).Nodup)
    {j j' : ℕ} {f g : TGFile} (hj : files.get? j = some f) (hj' : files.get? j' = some g)
    (hname : f.name = g.name) : j = j' := by
  have h1 : (files.map TGFile.name).get? j = some f.name := by
    rw [List.get?_map, hj]
    rfl
  have h2 : (files.map TGFile.name).get? j' = some g.name := by
    rw [List.get?_map, hj']
    rfl
  have hlt : j < (files.map TGFile.name).length := by
    by_contra hc
    rw [List.get?_eq_none.mpr (Nat.le_of_not_lt hc)] at h1
    exact Option.noConfusion h1
  exact List.get?_inj hlt hnd (by rw [h1, h2, hname])

theorem pair_update_foldl_none :
    ∀ (ds : List (List (String × List String) × List (String × List ℚ)))
    (d0 : List (String × List String) × List (String × List ℚ)) (k : String),
    (∀ d ∈ ds, dlookup d.1 k = none ∧ dlookup d.2 k = none) →
    dlookup ((ds.foldl (fun m r => (dictUpdate m.1 r.1, dictUpdate m.2 r.2)) d0).1) k
      = dlookup d0.1 k
    ∧ dlookup ((ds.foldl (fun m r => (dictUpdate m.1 r.1, dictUpdate m.2 r.2)) d0).2) k
      = dlookup d0.2 k
  | [], _, _, _ => ⟨rfl, rfl⟩
  | d :: ds, d0, k, h => by
    simp only [List.foldl_cons]
    have hd := h d (by simp)
    have ih := pair_update_foldl_none ds (dictUpdate d0.1 d.1, dictUpdate d0.2 d.2) k
      (fun d' hd' => h d' (by simp [hd']))
    exact ⟨ih.1.trans (dlookup_dictUpdate_of_none _ hd.1),
      ih.2.trans (dlookup_dictUpdate_of_none _ hd.2)⟩

theorem pair_update_foldl_some :
    ∀ (ds : List (List (String × List String) × List (String × List ℚ)))
    (d0 : List (String × List String) × List (String × List ℚ))
    (k : String) (v1 : List String) (v2 : List ℚ),
    (∀ d ∈ ds, (dlookup d.1 k = none ∧ dlookup d.2 k = none)
      ∨ (dlookup d.1 k = some v1 ∧ dlookup d.2 k = some v2
         ∧ NodupKeys d.1 ∧ NodupKeys d.2)) →
    (∃ d ∈ ds, dlookup d.1 k = some v1) →
    dlookup ((ds.foldl (fun m r => (dictUpdate m.1 r.1, dictUpdate m.2 r.2)) d0).1) k
      = some v1
    ∧ dlookup ((ds.foldl (fun m r => (dictUpdate m.1 r.1, dictUpdate m.2 r.2)) d0).2) k
      = some v2
  | [], _, _, _, _, _, hex => absurd hex (by simp)
  | d :: ds, d0, k, v1, v2, hall, hex => by
    simp only [List.foldl_cons]
    by_cases hex2 : ∃ d' ∈ ds, dlookup d'.1 k = some v1
    · exact pair_update_foldl_some ds _ k v1 v2
        (fun d' hd' => hall d' (by simp [hd'])) hex2
    · have hnone : ∀ d' ∈ ds, dlookup d'.1 k = none ∧ dlookup d'.2 k = none := by
        intro d' hd'
        rcases hall d' (by simp [hd']) with h | h
        · exact h
        · exact absurd ⟨d', hd', h.1⟩ hex2
      have hd : dlookup d.1 k = some v1 ∧ dlookup d.2 k = some v2
          ∧ NodupKeys d.1 ∧ NodupKeys d.2 := by
        rcases hall d (by simp) with h | h
        · rcases hex with ⟨d', hd', hv⟩
          rcases List.mem_cons.mp hd' with rfl | hmem
          · rw [h.1] at hv
            exact absurd hv (by simp)
          · exact absurd ⟨d', hmem, hv⟩ hex2
        · exact h
      have hfold := pair_update_foldl_none ds
        (dictUpdate d0.1 d.1, dictUpdate d0.2 d.2) k hnone
      exact ⟨hfold.1.trans (dlookup_dictUpdate_of_some _ hd.2.2.1 hd.1),
        hfold.2.trans (dlookup_dictUpdate_of_some _ hd.2.2.2 hd.2.1)⟩

theorem chunk_lookup_of_ne (files : List TGFile) (rs : Bool) {n j : ℕ} {k : String}
    (h : ∀ g ∈ stride_slice files j n, g.name ≠ k) :
    dlookup (cal_duration_by_tg (stride_slice files j n) rs).1 k = none
    ∧ dlookup (cal_duration_by_tg (stride_slice files j n) rs).2 k = none := by
  have h2 := cal_foldl_untouched rs (stride_slice files j n) ([], []) k h
  exact ⟨h2.1, h2.2⟩

/-- Claim C8 as amended: provided the files' utterance ids (basenames) are
pairwise distinct (the spec's standing assumption), splitting the file list
into N round-robin stride chunks, running `cal_duration_by_tg` on each chunk
independently, and merging the per-chunk pairs with `dict.update` in chunk
order yields exactly the same `idx2text` and `idx2duration` mappings as one
sequential run, for every N greater than or equal to 1. -/
theorem C8_partition_equivalence (files : List TGFile) (rs : Bool) (n : ℕ)
    (hn : 1 ≤ n) (hnd : (files.map TGFile.name).Nodup) (k : String) :
    dlookup (parallel_cal files rs n).1 k = dlookup (cal_duration_by_tg files rs).1 k
    ∧ dlookup (parallel_cal files rs n).2 k = dlookup (cal_duration_by_tg files rs).2 k := by
  have hpar : parallel_cal files rs n
      = ((List.range n).map (fun i => cal_duration_by_tg (stride_slice files i n) rs)).foldl
          (fun m r => (dictUpdate m.1 r.1, dictUpdate m.2 r.2)) ([], []) := rfl
  by_cases hex : ∃ f ∈ files, f.name = k
  · obtain ⟨f, hf, hfk⟩ := hex
    obtain ⟨idx, hget⟩ := List.mem_iff_get?.mp hf
    have hj0n : idx % n < n := Nat.mod_lt _ hn
    have hfmem : f ∈ stride_slice files (idx % n) n :=
      mem_stride_slice.mpr ⟨idx, hget, rfl⟩
    have hchunknd : ∀ j, ((stride_slice files j n).map TGFile.name).Nodup := fun j =>
      List.Nodup.sublist (List.Sublist.map TGFile.name (stride_slice_sublist files j n)) hnd
    have hother : ∀ j, j ≠ idx % n → ∀ g ∈ stride_slice files j n, g.name ≠ k := by
      intro j hjne g hg hgk
      obtain ⟨idx2, hget2, hmod2⟩ := mem_stride_slice.mp hg
      have heq : idx2 = idx := get?_name_inj hnd hget2 hget (hgk.trans hfk.symm)
      exact hjne (by rw [← hmod2, heq])
    have hseq := cal_foldl_outcome rs files ([], []) f hf hnd
      (by simp [NodupKeys, dkeys]) (by simp [NodupKeys, dkeys])
    have hchunk := cal_foldl_outcome rs (stride_slice files (idx % n) n) ([], []) f hfmem
      (hchunknd (idx % n)) (by simp [NodupKeys, dkeys]) (by simp [NodupKeys, dkeys])
    by_cases hsp : (cal_utt rs f).1 = ["<space>"]
    · have hallnone : ∀ d ∈ (List.range n).map
          (fun i => cal_duration_by_tg (stride_slice files i n) rs),
          dlookup d.1 k = none ∧ dlookup d.2 k = none := by
        intro d hd
        obtain ⟨j, _, rfl⟩ := List.mem_map.mp hd
        by_cases hjj : j = idx % n
        · subst hjj
          have hres := hchunk.1 hsp
          rw [hfk] at hres
          exact hres
        · exact chunk_lookup_of_ne files rs (hother j hjj)
      have hfold := pair_update_foldl_none _ ([], []) k hallnone
      have hseqres := hseq.1 hsp
      rw [hfk] at hseqres
      rw [hpar]
      exact ⟨hfold.1.trans hseqres.1.symm, hfold.2.trans hseqres.2.symm⟩
    · have hseqres := hseq.2 hsp
      rw [hfk] at hseqres
      have hchunkres := hchunk.2 hsp
      rw [hfk] at hchunkres
      have hnk := cal_foldl_nodupKeys rs (stride_slice files (idx % n) n) ([], [])
        (by simp [NodupKeys, dkeys]) (by simp [NodupKeys, dkeys])
      have hall : ∀ d ∈ (List.range n).map
          (fun i => cal_duration_by_tg (stride_slice files i n) rs),
          (dlookup d.1 k = none ∧ dlookup d.2 k = none)
          ∨ (dlookup d.1 k = some (cal_utt rs f).1
             ∧ dlookup d.2 k = some (cal_utt rs f).2
             ∧ NodupKeys d.1 ∧ NodupKeys d.2) := by
        intro d hd
        obtain ⟨j, _, rfl⟩ := List.mem_map.mp hd
        by_cases hjj : j = idx % n
        · subst hjj
          exact Or.inr ⟨hchunkres.1, hchunkres.2, hnk.1, hnk.2⟩
        · exact Or.inl (chunk_lookup_of_ne files rs (hother j hjj))
      have hex2 : ∃ d ∈ (List.range n).map
          (fun i => cal_duration_by_tg (stride_slice files i n) rs),
          dlookup d.1 k = some (cal_utt rs f).1 :=
        ⟨cal_duration_by_tg (stride_slice files (idx % n) n) rs,
          List.mem_map.mpr ⟨idx % n, List.mem_range.mpr hj0n, rfl⟩, hchunkres.1⟩
      have hfold := pair_update_foldl_some _ ([], []) k _ _ hall hex2
      rw [hpar]
      exact ⟨hfold.1.trans hseqres.1.symm, hfold.2.trans hseqres.2.symm⟩
  · push_neg at hex
    have hallnone : ∀ d ∈ (List.range n).map
        (fun i => cal_duration_by_tg (stride_slice files i n) rs),
        dlookup d.1 k = none ∧ dlookup d.2 k = none := by
      intro d hd
      obtain ⟨j, _, rfl⟩ := List.mem_map.mp hd
      refine chunk_lookup_of_ne files rs ?_
      intro g hg
      exact hex g ((stride_slice_sublist files j n).subset hg)
    have hfold := pair_update_foldl_none _ ([], []) k hallnone
    have hsequ := cal_foldl_untouched rs files ([], []) k hex
    rw [hpar]
    exact ⟨hfold.1.trans hsequ.1.symm, hfold.2.trans hsequ.2.symm⟩

/-- Counterexample to claim C8 as stated: with M = 3 files and N = 2 workers,
two files sharing the basename `x` (which round-robin splitting sends to
different chunks) make the merged mapping differ from the sequential one: the
merge order of chunks differs from the file order, so the chunk-1 value for
`x` overwrites the chunk-0 value, while sequentially the last file wins. -/
theorem C8_counterexample :
    dlookup (parallel_cal
        [⟨"a", [], [⟨0, 1, "AA"⟩]⟩, ⟨"x", [], [⟨0, 1, "AA"⟩]⟩, ⟨"x", [], [⟨0, 1, "IY"⟩]⟩]
        true 2).1 "x" = some ["AA"]
    ∧ dlookup (cal_duration_by_tg
        [⟨"a", [], [⟨0, 1, "AA"⟩]⟩, ⟨"x", [], [⟨0, 1, "AA"⟩]⟩, ⟨"x", [], [⟨0, 1, "IY"⟩]⟩]
        true).1 "x" = some ["IY"]
    ∧ dlookup (parallel_cal
        [⟨"a", [], [⟨0, 1, "AA"⟩]⟩, ⟨"x", [], [⟨0, 1, "AA"⟩]⟩, ⟨"x", [], [⟨0, 1, "IY"⟩]⟩]
        true 2).1 "x"
      ≠ dlookup (cal_duration_by_tg
        [⟨"a", [], [⟨0, 1, "AA"⟩]⟩, ⟨"x", [], [⟨0, 1, "AA"⟩]⟩, ⟨"x", [], [⟨0, 1, "IY"⟩]⟩]
        true).1 "x" := by
  have hs0 : stride_slice
      [⟨"a", [], [⟨0, 1, "AA"⟩]⟩, ⟨"x", [], [⟨0, 1, "AA"⟩]⟩, ⟨"x", [], [⟨0, 1, "IY"⟩]⟩] 0 2
      = [⟨"a", [], [⟨0, 1, "AA"⟩]⟩, ⟨"x", [], [⟨0, 1, "IY"⟩]⟩] := by
    simp [stride_slice, List.enum, List.enumFrom]
  have hs1 : stride_slice
      [⟨"a", [], [⟨0, 1, "AA"⟩]⟩, ⟨"x", [], [⟨0, 1, "AA"⟩]⟩, ⟨"x", [], [⟨0, 1, "IY"⟩]⟩] 1 2
      = [⟨"x", [], [⟨0, 1, "AA"⟩]⟩] := by
    simp [stride_slice, List.enum, List.enumFrom]
  have hc0 : cal_duration_by_tg
      [⟨"a", [], [⟨0, 1, "AA"⟩]⟩, ⟨"x", [], [⟨0, 1, "IY"⟩]⟩] true
      = ([("a", ["AA"]), ("x", ["IY"])], [("a", [1]), ("x", [1])]) := by
    norm_num [cal_duration_by_tg, cal_step, cal_utt, scan, stepPhn, phn_step_core,
      word_boundary_dict, dictSet, dlookup, silence_marks, round2, round_eq]
    simp
  have hc1 : cal_duration_by_tg [⟨"x", [], [⟨0, 1, "AA"⟩]⟩] true
      = ([("x", ["AA"])], [("x", [1])]) := by
    norm_num [cal_duration_by_tg, cal_step, cal_utt, scan, stepPhn, phn_step_core,
      word_boundary_dict, dictSet, dlookup, silence_marks, round2, round_eq]
    simp
  have hseq : cal_duration_by_tg
      [⟨"a", [], [⟨0, 1, "AA"⟩]⟩, ⟨"x", [], [⟨0, 1, "AA"⟩]⟩, ⟨"x", [], [⟨0, 1, "IY"⟩]⟩] true
      = ([("a", ["AA"]), ("x", ["IY"])], [("a", [1]), ("x", [1])]) := by
    norm_num [cal_duration_by_tg, cal_step, cal_utt, scan, stepPhn, phn_step_core,
      word_boundary_dict, dictSet, dlookup, silence_marks, round2, round_eq]
    simp
  have hpar : parallel_cal
      [⟨"a", [], [⟨0, 1, "AA"⟩]⟩, ⟨"x", [], [⟨0, 1, "AA"⟩]⟩, ⟨"x", [], [⟨0, 1, "IY"⟩]⟩]
      true 2
      = ([("a", ["AA"]), ("x", ["AA"])], [("a", [1]), ("x", [1])]) := by
    show ((List.range 2).map (fun i => cal_duration_by_tg (stride_slice
        [⟨"a", [], [⟨0, 1, "AA"⟩]⟩, ⟨"x", [], [⟨0, 1, "AA"⟩]⟩, ⟨"x", [], [⟨0, 1, "IY"⟩]⟩]
        i 2) true)).foldl
        (fun m r => (dictUpdate m.1 r.1, dictUpdate m.2 r.2)) ([], []) = _
    rw [show List.range 2 = [0, 1] by rfl]
    rw [List.map_cons, List.map_cons, List.map_nil, hs0, hs1, hc0, hc1]
    simp [dictUpdate, dictSet]
  rw [hseq, hpar]
  refine ⟨by simp [dlookup], by simp [dlookup], by simp [dlookup]⟩

/-- Witness for C8: the amended claim applied to a concrete one-file list with
one worker. -/
theorem C8_partition_equivalence_witness :
    dlookup (parallel_cal [⟨"w", [], [⟨0, 1, "AA"⟩]⟩] true 1).1 "w"
      = dlookup (cal_duration_by_tg [⟨"w", [], [⟨0, 1, "AA"⟩]⟩] true).1 "w"
    ∧ dlookup (parallel_cal [⟨"w", [], [⟨0, 1, "AA"⟩]⟩] true 1).2 "w"
      = dlookup (cal_duration_by_tg [⟨"w", [], [⟨0, 1, "AA"⟩]⟩] true).2 "w" :=
  C8_partition_equivalence [⟨"w", [], [⟨0, 1, "AA"⟩]⟩] true 1 (by decide) (by simp) "w"

end SpeeChain
